import Mathlib

/-!
Shallow embedding of the CSP solver in `Assignment 5/CSP-backtracking.py`
(class `CSP`: `add_variable`, `add_constraint_one_way`, `get_all_arcs`,
`get_all_neighboring_arcs`, `backtracking_search`, `backtrack`,
`select_unassigned_variable`, `inference`, `revise`).

Modelling decisions, all taken from the source:
* Variable names and values are opaque identifiers; we use `Nat` for both.
  (In the repository the values are the single-character strings "1".."9".)
* A domain in the mutable assignment dictionary is either a Python list of
  values (`PyDomain.lst`) or — after `backtrack` executes
  `assignment_cp[variable] = value` — the bare value itself (`PyDomain.raw`).
  For the single-character strings the program uses, the bare value iterates
  as the one-element sequence `[v]`, has `len` 1, contains exactly `v`, is
  truthy, and has no `remove` method (calling it raises `AttributeError`).
* Python dictionaries preserve insertion order; we model them as association
  lists where updating an existing key keeps its position (`assocSet`).
* Python exceptions (`KeyError`, `AttributeError`, `ValueError`) are modelled
  with `Except`/error outcomes; an exception aborts the whole computation,
  which matches the source (there are no exception handlers).
* `revise` iterates over the list it mutates.  CPython iterates a list by an
  internal index; `list.remove(x)` deletes the first occurrence of `x` and
  shifts the remainder left, so the element that moves into the current index
  is skipped.  `reviseLoop` models exactly this index-based iteration.
* The `while queue` loop of `inference` is embedded with explicit fuel;
  `phi` below is a provably sufficient amount of fuel, so `inferenceAll`
  computes the loop's exact result (this is proved as part of the termination
  claim).  The recursion of `backtrack` is likewise fuel-indexed (on this
  solver the recursion genuinely need not terminate, so no uniform fuel
  exists; `BOut.div` reports exhausted fuel).
-/

abbrev Var : Type := Nat
abbrev Val : Type := Nat

/-- Association-list lookup, first match wins — Python `d[k]` returning
`none` where Python raises `KeyError`. -/
def lookupA {β : Type} : List (Nat × β) → Nat → Option β
  | [], _ => none
  | (k, b) :: t, a => if k = a then some b else lookupA t a

/-- Association-list update, Python `d[k] = v`: an existing key keeps its
position (insertion order is preserved), a new key is appended. -/
def assocSet {β : Type} : List (Nat × β) → Nat → β → List (Nat × β)
  | [], k, v => [(k, v)]
  | (k', v') :: t, k, v =>
    if k' = k then (k, v) :: t else (k', v') :: assocSet t k v

/-- A value of the assignment dictionary: either a Python list of values, or
the bare (single-character string) value stored by
`assignment_cp[variable] = value`. -/
inductive PyDomain : Type
  | lst (xs : List Val)
  | raw (v : Val)
deriving DecidableEq

/-- Iterating a domain: a list yields its elements, a bare single-character
string yields that character. -/
def pyIter : PyDomain → List Val
  | .lst xs => xs
  | .raw v => [v]

/-- Python `len` of a domain (a single-character string has length 1). -/
def pyLen : PyDomain → Nat
  | .lst xs => xs.length
  | .raw _ => 1

/-- Python falsiness `not assignment[xi]`: an empty list is falsy; a
single-character string is truthy. -/
def pyFalsy : PyDomain → Bool
  | .lst xs => xs.isEmpty
  | .raw _ => false

/-- The assignment dictionary ("Domain Store"): variable name to domain,
in insertion order. -/
abbrev Store : Type := List (Var × PyDomain)

def lookupD (s : Store) (v : Var) : Option PyDomain := lookupA s v

/-- Length of a variable's domain in a store, 0 for a missing variable. -/
def pyLenD (s : Store) (v : Var) : Nat := (lookupD s v).elim 0 pyLen

/-- Python `sum(len(domain) for domain in assignment.values())`. -/
def sumLens (s : Store) : Nat := (s.map (fun p => pyLen p.2)).sum

/-- The constraint graph built by the `CSP` class: `vars` is the list
`self.variables`, `domains` is `self.domains`, and `constraints` maps a
variable `i` to the ordered dictionary `self.constraints[i]`, whose entry at
`j` is the filtered list of legal value pairs for the arc `(i, j)`. -/
structure CSPg : Type where
  vars : List Var
  domains : List (Var × List Val)
  constraints : List (Var × List (Var × List (Val × Val)))
deriving DecidableEq

def emptyCSP : CSPg := ⟨[], [], []⟩

/-- Method `CSP.add_variable(name, domain)`: appends `name` to `self.variables`
(even if it is already there — the source has no duplicate check), sets
`self.domains[name]` and resets `self.constraints[name]` to `{}`. -/
def add_variable (g : CSPg) (name : Var) (dom : List Val) : CSPg :=
  { vars := g.vars ++ [name]
  , domains := assocSet g.domains name dom
  , constraints := assocSet g.constraints name [] }

/-- Python `itertools.product(a, b)` materialised as a list, in Python's order. -/
def allPairs (a b : List Val) : List (Val × Val) :=
  a.foldr (fun x acc => b.map (fun y => (x, y)) ++ acc) []

/-- Method `CSP.add_constraint_one_way(i, j, filter_function)`: if `j` is not yet a
key of `self.constraints[i]`, start from the cross product of the current
domains; then filter by the predicate.  Raises `KeyError` (modelled as
`none`) when `i` has never been added as a variable, or when the cross
product needs a missing domain. -/
def add_constraint_one_way (g : CSPg) (i j : Var) (p : Val → Val → Bool) :
    Option CSPg :=
  match lookupA g.constraints i with
  | none => none
  | some nbrs =>
    let base? : Option (List (Val × Val)) :=
      match lookupA nbrs j with
      | some rel => some rel
      | none =>
        match lookupA g.domains i, lookupA g.domains j with
        | some di, some dj => some (allPairs di dj)
        | _, _ => none
    match base? with
    | none => none
    | some base =>
      some { g with
        constraints :=
          assocSet g.constraints i
            (assocSet nbrs j (base.filter (fun q => p q.1 q.2))) }

/-- Method `CSP.get_all_arcs()`: `[(i, j) for i in self.constraints for j in
self.constraints[i]]`, in dictionary (insertion) order. -/
def allArcs (g : CSPg) : List (Var × Var) :=
  g.constraints.flatMap (fun p => p.2.map (fun q => (p.1, q.1)))

/-- Lookup `self.constraints[i][j]`. -/
def relOf (g : CSPg) (i j : Var) : Option (List (Val × Val)) :=
  (lookupA g.constraints i).bind (fun nbrs => lookupA nbrs j)

inductive PyErr : Type
  | keyError
  | attrError
  | valueError
deriving DecidableEq

/-- The support test of `revise`:
`not sum(arc in self.constraints[xi][xj] for arc in arcs)` where
`arcs = list(product([x], assignment[xj]))`.  When `arcs` is empty the
generator never evaluates `self.constraints[xi][xj]`, so a missing
constraint entry raises `KeyError` only when `dj` is nonempty. -/
def supCheck (g : CSPg) (xi xj : Var) (x : Val) (dj : List Val) :
    Except PyErr Bool :=
  if dj.isEmpty then .ok false
  else
    match relOf g xi xj with
    | none => .error .keyError
    | some rel => .ok (dj.any (fun b => decide ((x, b) ∈ rel)))

/-- The `for x in assignment[xi]` loop of `revise` over a list domain,
mirroring CPython exactly: iteration is by an internal index `i` into the
list as it currently stands; `list.remove(x)` (which the source guards with
`if x in assignment[xi]`, a guard that always holds and that `List.erase`
reproduces by doing nothing for an absent element) deletes the first
occurrence of `x`, shifting later elements one slot left so that the element
arriving at index `i` is skipped.  When `xi = xj` the loop reads the list it
is mutating, so `dj` is re-read each step.

The first argument is a structural iteration bound: each step increments the
index by one and never lengthens the list, so the loop runs at most
`xs.length - i` further iterations; with the bound at least that (the caller
passes `xs.length` at index 0) the bound never runs out before the index
test ends the loop, and the function computes exactly the Python loop. -/
def reviseLoop (g : CSPg) (xi xj : Var) (djO : List Val) :
    Nat → List Val → Nat → Bool → Except PyErr (List Val × Bool)
  | 0, xs, _, revised => .ok (xs, revised)
  | n + 1, xs, i, revised =>
    if h : i < xs.length then
      let x := xs.get ⟨i, h⟩
      let dj := if xi = xj then xs else djO
      match supCheck g xi xj x dj with
      | .error e => .error e
      | .ok true => reviseLoop g xi xj djO n xs (i + 1) revised
      | .ok false => reviseLoop g xi xj djO n (xs.erase x) (i + 1) true
    else .ok (xs, revised)

/-- Method `CSP.revise(assignment, xi, xj)`.  On a bare-value (string) domain the
loop runs over the single character; taking the removal branch there is
`"c".remove(...)`, an `AttributeError`.  An empty list domain returns
`False` immediately without looking anything else up. -/
def reviseF (g : CSPg) (s : Store) (xi xj : Var) :
    Except PyErr (Store × Bool) :=
  match lookupD s xi with
  | none => .error .keyError
  | some (.raw v) =>
    match lookupD s xj with
    | none => .error .keyError
    | some dj =>
      match supCheck g xi xj v (pyIter dj) with
      | .error e => .error e
      | .ok true => .ok (s, false)
      | .ok false => .error .attrError
  | some (.lst xs) =>
    if xs.isEmpty then .ok (s, false)
    else
      match lookupD s xj with
      | none => .error .keyError
      | some dj =>
        match reviseLoop g xi xj (pyIter dj) xs.length xs 0 false with
        | .error e => .error e
        | .ok (xs', revised) =>
          if revised then .ok (assocSet s xi (.lst xs'), true)
          else .ok (s, false)

/-- Outcome of `inference`: the returned boolean together with the mutated
store, a raised exception, or exhausted fuel. -/
inductive IOut : Type
  | iok (b : Bool) (s : Store)
  | ierr (e : PyErr)
  | idiv
deriving DecidableEq

/-- Method `CSP.inference(assignment, queue)` — the AC-3 worklist loop — with one
unit of fuel per loop iteration (per `revise` call).  `queue.pop(0)` is
FIFO; after a revision that leaves `xi`'s domain truthy, every arc
`(xk, xi)` with `xk` a key of `self.constraints[xi]` other than `xj` is
appended. -/
def inferenceFuel (g : CSPg) : Nat → Store → List (Var × Var) → IOut
  | _, s, [] => .iok true s
  | 0, _, _ :: _ => .idiv
  | fuel + 1, s, (xi, xj) :: rest =>
    match reviseF g s xi xj with
    | .error e => .ierr e
    | .ok (s', revised) =>
      if revised then
        match lookupD s' xi with
        | none => .ierr .keyError
        | some d =>
          if pyFalsy d then .iok false s'
          else
            match lookupA g.constraints xi with
            | none => .ierr .keyError
            | some nbrs =>
              inferenceFuel g fuel s'
                (rest ++
                  ((nbrs.map Prod.fst).filter (fun xk => xk ≠ xj)).map
                    (fun xk => (xk, xi)))
      else inferenceFuel g fuel s' rest

/-- The summand of `phi` contributed by the constraint dictionary: for each
entry `(i, nbrs)`, the number of neighbours of `i` times the current length
of `i`'s domain. -/
def domTermL (cs : List (Var × List (Var × List (Val × Val)))) (s : Store) :
    Nat :=
  (cs.map (fun p => p.2.length * pyLenD s p.1)).sum

def domTerm (g : CSPg) (s : Store) : Nat := domTermL g.constraints s

/-- A provably sufficient amount of fuel for the AC-3 loop: the loop
strictly decreases `phi` at every iteration. -/
def phi (g : CSPg) (s : Store) (q : List (Var × Var)) : Nat :=
  q.length + domTerm g s

/-- The function `inference` as called by the program (seeded with `get_all_arcs()`),
with enough fuel to equal the Python loop's result. -/
def inferenceAll (g : CSPg) (s : Store) : IOut :=
  inferenceFuel g (phi g s (allArcs g)) s (allArcs g)

/-- The key `lambda var: float("inf") if len(assignment[var]) < 2 else
len(assignment[var])` of `select_unassigned_variable`; `none` is infinity. -/
def infKey (d : PyDomain) : Option Nat :=
  if pyLen d < 2 then none else some (pyLen d)

/-- The strict comparison used by Python `min` on such keys. -/
def keyLt : Option Nat → Option Nat → Bool
  | some a, some b => a < b
  | some _, none => true
  | none, _ => false

/-- Python `min` over the remaining entries: the current minimum is replaced only
by a strictly smaller key, so the first minimum wins — Python `min`'s
tie-breaking. -/
def selMinE : List (Var × PyDomain) → (Var × PyDomain) → (Var × PyDomain)
  | [], best => best
  | e :: rest, best =>
    if keyLt (infKey e.2) (infKey best.2) then selMinE rest e
    else selMinE rest best

/-- Method `CSP.select_unassigned_variable(assignment)`:
`min(assignment.keys(), key=...)`; Python `min` of an empty dictionary
raises `ValueError` (`none` here). -/
def select (s : Store) : Option Var :=
  match s with
  | [] => none
  | e :: rest => some (selMinE rest e).1

/-- Counters `self.backtracking_number` and `self.failed_backtracking_number`. -/
structure Stats : Type where
  bt : Nat
  fbt : Nat
deriving DecidableEq

/-- Outcome of `backtrack`/`backtracking_search`: a returned value (the
found assignment or Python `None`) with the counters' final values, an
exception, or exhausted recursion fuel. -/
inductive BOut : Type
  | ret (r : Option Store) (st : Stats)
  | exn (e : PyErr)
  | div
deriving DecidableEq

/-- Statement `assignment_cp[variable] = value` — the domain of the chosen variable in
the (deep-copied) clone becomes the bare value, not a one-element list. -/
def assignValue (s : Store) (var : Var) (v : Val) : Store :=
  assocSet s var (.raw v)

/-- The `for value in assignment[variable]` loop body of `backtrack`: clone,
assign the bare value, run `inference` on all arcs, and recurse on success;
`if result:` treats both `None` and an empty dictionary as failure.  `bt`
is the recursive call (the caller passes `backtrack` at one less fuel). -/
def goVals (g : CSPg) (bt : Store → Stats → BOut) (var : Var) :
    List Val → Store → Stats → BOut
  | [], _, st => .ret none ⟨st.bt, st.fbt + 1⟩
  | v :: vs, s, st =>
    match inferenceAll g (assignValue s var v) with
    | .ierr e => .exn e
    | .idiv => .div
    | .iok false _ => goVals g bt var vs s st
    | .iok true s' =>
      match bt s' ⟨st.bt + 1, st.fbt⟩ with
      | .div => .div
      | .exn e => .exn e
      | .ret r st' =>
        match r with
        | some sol =>
          if sol.isEmpty then goVals g bt var vs s st'
          else .ret (some sol) st'
        | none => goVals g bt var vs s st'

/-- Method `CSP.backtrack(assignment)`: terminal success when the summed domain
lengths equal the number of variables; otherwise pick a variable and try its
values in order.  Fuel bounds the recursion depth (the source can recurse
forever, see the reachable self-repeating state with an empty unconstrained
domain). -/
def backtrackF (g : CSPg) : Nat → Store → Stats → BOut
  | 0, _, _ => .div
  | fuel + 1, s, st =>
    if sumLens s = s.length then .ret (some s) st
    else
      match select s with
      | none => .exn .valueError
      | some var =>
        match lookupD s var with
        | none => .exn .keyError
        | some dom =>
          goVals g (fun s' st' => backtrackF g fuel s' st') var (pyIter dom)
            s st

/-- The store `backtracking_search` starts from:
`copy.deepcopy(self.domains)` (every domain is a list). -/
def initStore (g : CSPg) : Store :=
  g.domains.map (fun p => (p.1, PyDomain.lst p.2))

/-- Method `CSP.backtracking_search()`: run `inference` on all arcs — its boolean
result is discarded, only the in-place pruning survives — then set
`backtracking_number = 1`, `failed_backtracking_number = 0` and call
`backtrack`. -/
def searchF (g : CSPg) (fuel : Nat) : BOut :=
  match inferenceAll g (initStore g) with
  | .ierr e => .exn e
  | .idiv => .div
  | .iok _ s' => backtrackF g fuel s' ⟨1, 0⟩

/-! ### Observations used to state the claims -/

/-- Value `x` of variable `i` has a compatible value left in `j`'s domain
(the arc-consistency support relation, read off the source's data). -/
def valueSupported (g : CSPg) (s : Store) (i j : Var) (x : Val) : Bool :=
  match relOf g i j, lookupD s j with
  | some rel, some dj => (pyIter dj).any (fun b => decide ((x, b) ∈ rel))
  | _, _ => false

/-- Every domain of the store has exactly one value. -/
def allSingletonB (s : Store) : Bool := s.all (fun p => pyLen p.2 == 1)

/-- The store is arc-consistent for the graph: every arc `(i, j)` returned
by `get_all_arcs` has both domains and its relation present, and every value
of `i`'s domain has a supporting value in `j`'s domain. -/
def arcConsB (g : CSPg) (s : Store) : Bool :=
  (allArcs g).all (fun a =>
    match lookupD s a.1, lookupD s a.2, relOf g a.1 a.2 with
    | some di, some dj, some rel =>
      (pyIter di).all (fun x => (pyIter dj).any (fun b => decide ((x, b) ∈ rel)))
    | _, _, _ => false)

/-- All total assignments choosing one value per variable from the declared
domains. -/
def totalAssignments : List (Var × List Val) → List (List (Var × Val))
  | [] => [[]]
  | (v, dom) :: rest =>
    dom.flatMap (fun x => (totalAssignments rest).map (fun a => (v, x) :: a))

/-- A total assignment satisfies every installed directed constraint. -/
def satisfiesG (g : CSPg) (a : List (Var × Val)) : Bool :=
  g.constraints.all (fun p => p.2.all (fun q =>
    match lookupA a p.1, lookupA a q.1 with
    | some x, some y => decide ((x, y) ∈ q.2)
    | _, _ => false))

/-- The CSP has no solution at all. -/
def hasNoSolution (g : CSPg) : Bool :=
  (totalAssignments g.domains).all (fun a => !satisfiesG g a)

/-! ### Concrete constraint graphs (test fixtures built through the
source's own builder operations) -/

/-- Two variables `0 ↦ [1, 2, 3]`, `1 ↦ [3]`, equality constraint installed
in both directions. -/
def g1 : CSPg :=
  (do
    let g := add_variable (add_variable emptyCSP 0 [1, 2, 3]) 1 [3]
    let g ← add_constraint_one_way g 0 1 (fun a b => a == b)
    let g ← add_constraint_one_way g 1 0 (fun a b => a == b)
    pure g).getD emptyCSP

/-- The store produced by one `inference` pass over `g1` from its initial
domains. -/
def s1A : Store := [(0, PyDomain.lst [2, 3]), (1, PyDomain.lst [3])]

/-- The store produced by a second `inference` pass over `g1`. -/
def s1B : Store := [(0, PyDomain.lst [3]), (1, PyDomain.lst [3])]

/-- Three variables `0 ↦ [1]`, `1 ↦ [1, 2]`, `2 ↦ [2]`; equality constraint
between `0` and `2` in both directions (variable `1` is unconstrained).
This CSP has no solution. -/
def g2 : CSPg :=
  (do
    let g :=
      add_variable (add_variable (add_variable emptyCSP 0 [1]) 1 [1, 2]) 2 [2]
    let g ← add_constraint_one_way g 0 2 (fun a b => a == b)
    let g ← add_constraint_one_way g 2 0 (fun a b => a == b)
    pure g).getD emptyCSP

/-- The store left behind by the failed preprocessing pass on `g2`:
variable `0`'s domain is empty, yet the summed lengths equal the number of
variables. -/
def s2A : Store :=
  [(0, PyDomain.lst []), (1, PyDomain.lst [1, 2]), (2, PyDomain.lst [2])]

/-- Two unconstrained variables, used to exercise `backtrack` directly. -/
def g3 : CSPg := add_variable (add_variable emptyCSP 0 []) 1 [1, 2]

/-- A store for `g3` in which variable `0` has an empty domain and variable
`1` has two values: not every domain is a singleton, but the summed lengths
equal the number of variables. -/
def s3 : Store := [(0, PyDomain.lst []), (1, PyDomain.lst [1, 2])]

/-- Three variables `0 ↦ [1, 2]`, `1 ↦ [1]`, `2 ↦ [1]`; `0 = 1` and `1 ≠ 2`,
each installed in both directions.  Running `backtracking_search` on this
graph reaches `revise`'s removal branch while variable `0`'s domain is the
bare assigned value. -/
def g10 : CSPg :=
  (do
    let g :=
      add_variable (add_variable (add_variable emptyCSP 0 [1, 2]) 1 [1]) 2 [1]
    let g ← add_constraint_one_way g 0 1 (fun a b => a == b)
    let g ← add_constraint_one_way g 1 0 (fun a b => a == b)
    let g ← add_constraint_one_way g 1 2 (fun a b => a != b)
    let g ← add_constraint_one_way g 2 1 (fun a b => a != b)
    pure g).getD emptyCSP

/-- A small store used to exhibit the assignment step of `backtrack`. -/
def s4 : Store := [(0, PyDomain.lst [1, 2]), (1, PyDomain.lst [3])]

/-! ### Claim C1 -/

/-- C1 (code bug): the arc-consistency postcondition of AC-3 fails on the
code.  On `g1`, `inference` seeded with all arcs returns `true`, yet value
`2` survives in variable `0`'s final domain although no value of variable
`1`'s domain is compatible with it: `revise` removed `1` from the list it
was iterating, the shift moved `2` into the current index, and the loop
skipped it.  The claim (the textbook `AC-3`/`Revise` postcondition, which
the functions' own docstrings promise) is right and the code is wrong. -/
theorem ac3_true_leaves_unsupported_value :
    inferenceAll g1 (initStore g1) = .iok true s1A ∧
    lookupD s1A 0 = some (PyDomain.lst [2, 3]) ∧
    2 ∈ pyIter (PyDomain.lst [2, 3]) ∧
    valueSupported g1 s1A 0 1 2 = false := by
  refine ⟨by decide, by decide, by decide, by decide⟩

/-! ### Claim C3 -/

/-- C3 (code bug): `backtrack`'s terminal test is
`sum(len(domain)) == len(assignment)`, not "every domain has exactly one
value" as its docstring states.  On the store `s3` (one empty domain, one
two-value domain) the sum equals the variable count, so `backtrack`
returns the store as a success even though not every domain is a
singleton. -/
theorem backtrack_terminal_accepts_non_singleton :
    backtrackF g3 1 s3 ⟨1, 0⟩ = .ret (some s3) ⟨1, 0⟩ ∧
    allSingletonB s3 = false := by
  refine ⟨by decide, by decide⟩

/-! ### Claim C9 -/

/-- C9 (code bug): `g2` has no solution, yet `backtracking_search` does not
return the failure value `None`: the ignored preprocessing failure leaves a
store whose summed domain lengths equal the variable count (an empty domain
compensated by a two-value domain), the terminal test accepts it, and the
search returns that broken store with `failed_backtracking_number = 0`. -/
theorem unsatisfiable_search_returns_store_and_zero_failed_count :
    hasNoSolution g2 = true ∧
    searchF g2 5 = .ret (some s2A) ⟨1, 0⟩ ∧
    lookupD s2A 0 = some (PyDomain.lst []) := by
  refine ⟨by decide, by decide, by decide⟩

/-! ### Claim C10 -/

/-- C10 (code bug): running `backtracking_search` on `g10` reaches, in a
reachable search state, the removal branch of `revise` while the revised
variable's domain is the bare assigned value rather than a list: the
embedding's `attrError` is raised exactly at that branch (Python:
`AttributeError`, `str` has no `remove`).  So `revise` is not total on the
states the search actually produces. -/
theorem search_reaches_remove_on_raw_domain :
    searchF g10 3 = .exn .attrError := by decide

/-! ### Claim C2: counterexample -/

/-- C2 counterexample: on `g2` the initial full-arc AC-3 preprocessing pass
fails (returns `false`, having emptied variable `0`'s domain), yet
`backtracking_search` does not report failure: its boolean result is
discarded, `backtrack` runs and even returns a (broken) assignment. -/
theorem search_after_failed_preprocessing_cex :
    inferenceAll g2 (initStore g2) = .iok false s2A ∧
    searchF g2 5 = .ret (some s2A) ⟨1, 0⟩ := by
  refine ⟨by decide, by decide⟩

/-! ### Claim C6: counterexample -/

/-- C6 counterexample: running `inference` twice from `g1`'s initial
domains removes strictly more than running it once — the first pass skipped
the unsupported value `2` (in-place removal during iteration), the second
pass removes it.  So propagation is not idempotent. -/
theorem inference_not_idempotent_cex :
    inferenceAll g1 (initStore g1) = .iok true s1A ∧
    inferenceAll g1 s1A = .iok true s1B ∧
    s1A ≠ s1B := by
  refine ⟨by decide, by decide, by decide⟩

/-! ### Claim C5: counterexample -/

/-- C5 counterexample: `add_variable` has no duplicate check.  Registering
name `0` twice does not fail with any `DuplicateVariable` error; it
silently re-registers: the name occurs twice in `self.variables`, the
domain is overwritten and the constraint dictionary for the name reset. -/
theorem add_variable_duplicate_cex :
    (add_variable (add_variable emptyCSP 0 [1, 2]) 0 [7]).vars = [0, 0] ∧
    lookupA (add_variable (add_variable emptyCSP 0 [1, 2]) 0 [7]).domains 0 =
      some [7] ∧
    lookupA (add_variable (add_variable emptyCSP 0 [1, 2]) 0 [7]).constraints
      0 = some [] := by
  refine ⟨by decide, by decide, by decide⟩

/-! ### Claim C4: counterexample -/

/-- C4 counterexample: the per-candidate assignment step of `backtrack`
stores the bare value, not the one-element list (singleton collection)
`[v]`: after `assignment_cp[variable] = value` the domain is
`PyDomain.raw 1`, which is a different object from `PyDomain.lst [1]` (in
Python: the string `"1"` rather than the list `["1"]`). -/
theorem assign_sets_bare_value_cex :
    lookupD (assignValue s4 0 1) 0 = some (PyDomain.raw 1) ∧
    PyDomain.raw 1 ≠ PyDomain.lst [1] := by
  refine ⟨by decide, by decide⟩

/-! ### Association-list lemmas -/

theorem lookupA_assocSet_self {β : Type} (l : List (Nat × β)) (k : Nat)
    (v : β) : lookupA (assocSet l k v) k = some v := by
  induction l with
  | nil => simp [assocSet, lookupA]
  | cons hd t ih =>
    obtain ⟨k', v'⟩ := hd
    by_cases hk : k' = k
    · simp [assocSet, hk, lookupA]
    · simp [assocSet, hk, lookupA, ih]

theorem lookupA_assocSet_ne {β : Type} (l : List (Nat × β)) (k k' : Nat)
    (v : β) (h : k' ≠ k) : lookupA (assocSet l k v) k' = lookupA l k' := by
  have hk' : ¬(k = k') := fun hh => h hh.symm
  induction l with
  | nil => simp [assocSet, lookupA, hk']
  | cons hd t ih =>
    obtain ⟨k₀, v₀⟩ := hd
    by_cases hk : k₀ = k
    · subst hk
      simp [assocSet, lookupA, hk']
    · simp [assocSet, hk, lookupA, ih]

/-! ### Claim C2: amended statement -/

/-- C2 amended: `backtracking_search` discards the boolean result of the
initial full-arc AC-3 pass.  When that pass fails (returns `false`, leaving
the partially pruned store `s'`), the search does not report failure — it
still proceeds into `backtrack` on `s'` with the counters initialised to
`(1, 0)`, exactly as it does on success. -/
theorem search_proceeds_after_failed_preprocessing (g : CSPg) (fuel : Nat)
    (s' : Store) (h : inferenceAll g (initStore g) = .iok false s') :
    searchF g fuel = backtrackF g fuel s' ⟨1, 0⟩ := by
  simp [searchF, h]

/-- Witness for `search_proceeds_after_failed_preprocessing` at `g2`. -/
theorem search_proceeds_after_failed_preprocessing_witness :
    inferenceAll g2 (initStore g2) = .iok false s2A ∧
    searchF g2 5 = backtrackF g2 5 s2A ⟨1, 0⟩ :=
  ⟨by decide, search_proceeds_after_failed_preprocessing g2 5 s2A (by decide)⟩

/-! ### Claim C4: amended statement -/

/-- C4 amended: for each candidate value `v`, `backtrack` sets the chosen
variable's domain in the cloned assignment to the bare value (for the
single-character strings this solver uses, that value iterates as the
one-element sequence `[v]`, has length 1 and is truthy — but it is not the
one-element list), and every other variable's domain in the clone is the
parent's domain unchanged (the parent store itself is reused, unmutated,
for the remaining candidates). -/
theorem assign_bare_value_behaves_as_singleton (s : Store) (var : Var)
    (v : Val) :
    lookupD (assignValue s var v) var = some (PyDomain.raw v) ∧
    pyIter (PyDomain.raw v) = [v] ∧
    pyLen (PyDomain.raw v) = 1 ∧
    pyFalsy (PyDomain.raw v) = false ∧
    ∀ w, w ≠ var → lookupD (assignValue s var v) w = lookupD s w := by
  refine ⟨lookupA_assocSet_self s var _, rfl, rfl, rfl, ?_⟩
  intro w hw
  exact lookupA_assocSet_ne s var w _ hw

/-- Witness for `assign_bare_value_behaves_as_singleton` at `s4`. -/
theorem assign_bare_value_behaves_as_singleton_witness :
    (1 : Var) ≠ 0 ∧ lookupD (assignValue s4 0 1) 1 = lookupD s4 1 :=
  ⟨by decide,
    (assign_bare_value_behaves_as_singleton s4 0 1).2.2.2.2 1 (by decide)⟩

/-! ### Claim C5: amended statement -/

/-- C5 amended: `add_variable` never fails.  Called with a `name` that the
graph already contains, it silently re-registers the name: `name` is
appended to `self.variables` a second time, `self.domains[name]` is
replaced by the new domain and `self.constraints[name]` is reset to the
empty dictionary. -/
theorem add_variable_duplicate_reregisters (g : CSPg) (name : Var)
    (dom : List Val) (_h : name ∈ g.vars) :
    (add_variable g name dom).vars = g.vars ++ [name] ∧
    lookupA (add_variable g name dom).domains name = some dom ∧
    lookupA (add_variable g name dom).constraints name = some [] :=
  ⟨rfl, lookupA_assocSet_self g.domains name dom,
    lookupA_assocSet_self g.constraints name []⟩

/-- Witness for `add_variable_duplicate_reregisters`. -/
theorem add_variable_duplicate_reregisters_witness :
    (0 : Var) ∈ (add_variable emptyCSP 0 [1, 2]).vars ∧
    (add_variable (add_variable emptyCSP 0 [1, 2]) 0 [7]).vars =
      (add_variable emptyCSP 0 [1, 2]).vars ++ [0] :=
  ⟨by decide,
    (add_variable_duplicate_reregisters (add_variable emptyCSP 0 [1, 2]) 0
      [7] (by decide)).1⟩

/-! ### Claim C6: amended statement -/

theorem supCheck_of_any (g : CSPg) (xi xj : Var) (x : Val) (dj : List Val)
    (rel : List (Val × Val)) (hrel : relOf g xi xj = some rel)
    (hany : dj.any (fun b => decide ((x, b) ∈ rel)) = true) :
    supCheck g xi xj x dj = .ok true := by
  obtain ⟨b, hb, -⟩ := List.any_eq_true.mp hany
  have hne : dj.isEmpty = false := by
    cases dj with
    | nil => cases hb
    | cons c t => rfl
  simp [supCheck, hne, hrel, hany]

theorem reviseLoop_no_removal (g : CSPg) (xi xj : Var) (djO : List Val)
    (xs : List Val)
    (hsup : ∀ x ∈ xs,
      supCheck g xi xj x (if xi = xj then xs else djO) = .ok true) :
    ∀ n i, reviseLoop g xi xj djO n xs i false = .ok (xs, false) := by
  intro n
  induction n with
  | zero => intro i; rfl
  | succ n ih =>
    intro i
    by_cases h : i < xs.length
    · have hx : xs.get ⟨i, h⟩ ∈ xs := xs.get_mem i h
      simp only [reviseLoop, dif_pos h, hsup _ hx]
      exact ih (i + 1)
    · simp only [reviseLoop, dif_neg h]

/-- If the store is arc-consistent for the graph, `revise` removes nothing
from any arc of the graph and returns `False`. -/
theorem revise_no_removal (g : CSPg) (s : Store) (xi xj : Var)
    (harc : (xi, xj) ∈ allArcs g) (hac : arcConsB g s = true) :
    reviseF g s xi xj = .ok (s, false) := by
  have hone := (List.all_eq_true.mp hac) _ harc
  simp only at hone
  cases hdi : lookupD s xi with
  | none => rw [hdi] at hone; simp at hone
  | some di =>
    cases hdj : lookupD s xj with
    | none => rw [hdi, hdj] at hone; simp at hone
    | some dj =>
      cases hrel : relOf g xi xj with
      | none => rw [hdi, hdj, hrel] at hone; simp at hone
      | some rel =>
        rw [hdi, hdj, hrel] at hone
        have hall := List.all_eq_true.mp hone
        cases di with
        | raw v =>
          have hv := hall v (by simp [pyIter])
          simp only [reviseF, hdi, hdj,
            supCheck_of_any g xi xj v (pyIter dj) rel hrel hv]
        | lst xs =>
          cases hxs : xs.isEmpty with
          | true => simp [reviseF, hdi, hxs]
          | false =>
            have hsup : ∀ x ∈ xs,
                supCheck g xi xj x (if xi = xj then xs else pyIter dj) =
                  .ok true := by
              intro x hx
              have hxsup := hall x (by simpa [pyIter] using hx)
              by_cases hij : xi = xj
              · have : dj = PyDomain.lst xs := by
                  rw [hij] at hdi; rw [hdi] at hdj; exact (Option.some.inj hdj).symm
                subst this
                simpa [hij, pyIter] using
                  supCheck_of_any g xi xj x xs rel hrel (by simpa [pyIter] using hxsup)
              · simpa [hij] using
                  supCheck_of_any g xi xj x (pyIter dj) rel hrel hxsup
            simp [reviseF, hdi, hxs, hdj,
              reviseLoop_no_removal g xi xj (pyIter dj) xs hsup xs.length 0]

theorem inference_fixed_aux (g : CSPg) (s : Store)
    (hac : arcConsB g s = true) :
    ∀ q fuel, (∀ a ∈ q, a ∈ allArcs g) → q.length ≤ fuel →
      inferenceFuel g fuel s q = .iok true s := by
  intro q
  induction q with
  | nil =>
    intro fuel _ _
    cases fuel <;> rfl
  | cons a rest ih =>
    intro fuel hsub hlen
    obtain ⟨xi, xj⟩ := a
    match fuel with
    | 0 => simp at hlen
    | fuel + 1 =>
      have hrev : reviseF g s xi xj = .ok (s, false) :=
        revise_no_removal g s xi xj (hsub _ (by simp)) hac
      simp only [inferenceFuel, hrev]
      exact ih fuel (fun a ha => hsub a (by simp [ha])) (by simpa using hlen)

/-- C6 amended: a store on which `revise` can remove nothing — an
arc-consistent store — is a stable fixed point: `inference` seeded with all
arcs returns `true` and leaves the store unchanged, so a second run from
such a store changes nothing.  (In general, running `inference` twice is
not the same as running it once, because a pass of `revise` can skip an
unsupported value while removing in place; see the counterexample.) -/
theorem inference_fixed_on_arc_consistent_store (g : CSPg) (s : Store)
    (h : arcConsB g s = true) : inferenceAll g s = .iok true s :=
  inference_fixed_aux g s h (allArcs g) (phi g s (allArcs g))
    (fun _ ha => ha) (Nat.le_add_right _ _)

/-- Witness for `inference_fixed_on_arc_consistent_store` at the
arc-consistent store `s1B`. -/
theorem inference_fixed_on_arc_consistent_store_witness :
    arcConsB g1 s1B = true ∧ inferenceAll g1 s1B = .iok true s1B :=
  ⟨by decide, inference_fixed_on_arc_consistent_store g1 s1B (by decide)⟩

/-! ### Claim C7 -/

theorem keyLt_irrefl (a : Option Nat) : keyLt a a = false := by
  cases a <;> simp [keyLt]

theorem keyLt_asymm (a b : Option Nat) (h : keyLt a b = true) :
    keyLt b a = false := by
  cases a <;> cases b <;> simp [keyLt] at * <;> omega

theorem keyLt_le_trans (a b c : Option Nat) (hba : keyLt b a = false)
    (hcb : keyLt c b = false) : keyLt c a = false := by
  cases a <;> cases b <;> cases c <;> simp [keyLt] at * <;> omega

theorem keyLt_lt_of_le_of_lt (m e b : Option Nat) (hem : keyLt e m = false)
    (heb : keyLt e b = true) : keyLt m b = true := by
  cases m <;> cases e <;> cases b <;> simp [keyLt] at * <;> omega

theorem keyLt_lt_of_lt_of_le (m b e : Option Nat) (hmb : keyLt m b = true)
    (heb : keyLt e b = false) : keyLt m e = true := by
  cases m <;> cases e <;> cases b <;> simp [keyLt] at * <;> omega

/-- The running minimum of `selMinE` has a key no larger than the initial
candidate's key and than every scanned entry's key. -/
theorem selMinE_le (rest : List (Var × PyDomain)) (best : Var × PyDomain) :
    keyLt (infKey best.2) (infKey (selMinE rest best).2) = false ∧
    ∀ e ∈ rest, keyLt (infKey e.2) (infKey (selMinE rest best).2) = false := by
  induction rest generalizing best with
  | nil => exact ⟨keyLt_irrefl _, by simp⟩
  | cons e rest ih =>
    cases h : keyLt (infKey e.2) (infKey best.2) with
    | true =>
      obtain ⟨h1, h2⟩ := ih e
      have hm : selMinE (e :: rest) best = selMinE rest e := by
        simp [selMinE, h]
      rw [hm]
      refine ⟨keyLt_asymm _ _ (keyLt_lt_of_le_of_lt _ _ _ h1 h), ?_⟩
      intro x hx
      rcases List.mem_cons.mp hx with hx | hx
      · subst hx; exact h1
      · exact h2 x hx
    | false =>
      obtain ⟨h1, h2⟩ := ih best
      have hm : selMinE (e :: rest) best = selMinE rest best := by
        simp [selMinE, h]
      rw [hm]
      refine ⟨h1, ?_⟩
      intro x hx
      rcases List.mem_cons.mp hx with hx | hx
      · subst hx; exact keyLt_le_trans _ _ _ h1 h
      · exact h2 x hx

/-- Function `selMinE` returns the earliest entry attaining the minimum: everything
before it in `best :: rest` has a strictly larger key (Python `min` keeps
the first minimum). -/
theorem selMinE_first (rest : List (Var × PyDomain)) (best : Var × PyDomain) :
    ∃ pre post, best :: rest = pre ++ (selMinE rest best) :: post ∧
      ∀ e ∈ pre, keyLt (infKey (selMinE rest best).2) (infKey e.2) = true := by
  induction rest generalizing best with
  | nil => exact ⟨[], [], rfl, by simp⟩
  | cons e rest ih =>
    cases h : keyLt (infKey e.2) (infKey best.2) with
    | true =>
      have hm : selMinE (e :: rest) best = selMinE rest e := by
        simp [selMinE, h]
      obtain ⟨pre, post, hsplit, hpre⟩ := ih e
      refine ⟨best :: pre, post, ?_, ?_⟩
      · rw [hm, List.cons_append, ← hsplit]
      · intro x hx
        rcases List.mem_cons.mp hx with hx | hx
        · subst hx
          rw [hm]
          exact keyLt_lt_of_le_of_lt _ _ _ (selMinE_le rest e).1 h
        · rw [hm]; exact hpre x hx
    | false =>
      have hm : selMinE (e :: rest) best = selMinE rest best := by
        simp [selMinE, h]
      obtain ⟨pre, post, hsplit, hpre⟩ := ih best
      cases pre with
      | nil =>
        simp only [List.nil_append] at hsplit
        have hbm : selMinE rest best = best := by
          injection hsplit with h1 h2
          exact h1.symm
        refine ⟨[], e :: rest, ?_, by simp⟩
        rw [hm, hbm]
        simp
      | cons p pre' =>
        rw [List.cons_append] at hsplit
        injection hsplit with hp hr
        refine ⟨best :: e :: pre', post, ?_, ?_⟩
        · rw [hm]
          exact congrArg (fun l => (best : Var × PyDomain) :: e :: l) hr
        · intro x hx
          have hbestlt : keyLt (infKey (selMinE rest best).2)
              (infKey best.2) = true := by
            have hx := hpre p (by simp)
            rw [← hp] at hx
            exact hx
          rcases List.mem_cons.mp hx with hx | hx
          · subst hx; rw [hm]; exact hbestlt
          · rcases List.mem_cons.mp hx with hx | hx
            · subst hx
              rw [hm]
              exact keyLt_lt_of_lt_of_le _ _ _ hbestlt h
            · rw [hm]; exact hpre x (by simp [hx])

theorem infKey_eq_some (d : PyDomain) (L : Nat) (h : infKey d = some L) :
    2 ≤ pyLen d ∧ pyLen d = L := by
  unfold infKey at h
  by_cases hl : pyLen d < 2
  · simp [hl] at h
  · simp [hl] at h
    exact ⟨by omega, h⟩

theorem infKey_of_ge (d : PyDomain) (h : 2 ≤ pyLen d) :
    infKey d = some (pyLen d) := by
  unfold infKey
  simp [Nat.not_lt.mpr h]

/-- C7 (confirmed): Minimum-Remaining-Values selection.  If the assignment
contains at least one entry with domain length at least 2, then
`select_unassigned_variable` returns the name of an entry whose domain
length is at least 2 and minimal among all such entries, and every entry
occurring earlier in the dictionary (which iterates in declaration order)
with length at least 2 has a strictly larger domain — so ties are broken by
the fixed declaration order, and no already-decided (or empty) domain is
ever selected while an undecided one remains. -/
theorem select_unassigned_variable_mrv (s : Store)
    (h : ∃ e ∈ s, 2 ≤ pyLen e.2) :
    ∃ pre m post, s = pre ++ m :: post ∧ select s = some m.1 ∧
      2 ≤ pyLen m.2 ∧
      (∀ e ∈ s, 2 ≤ pyLen e.2 → pyLen m.2 ≤ pyLen e.2) ∧
      (∀ e ∈ pre, 2 ≤ pyLen e.2 → pyLen m.2 < pyLen e.2) := by
  obtain ⟨e₀, he₀, hlen₀⟩ := h
  cases s with
  | nil => cases he₀
  | cons best rest =>
    obtain ⟨pre, post, hsplit, hpre⟩ := selMinE_first rest best
    obtain ⟨hb, hr⟩ := selMinE_le rest best
    have hle₀ : keyLt (infKey e₀.2) (infKey (selMinE rest best).2) = false := by
      rcases List.mem_cons.mp he₀ with h0 | h0
      · rw [h0]; exact hb
      · exact hr e₀ h0
    have hkm : ∃ L, infKey (selMinE rest best).2 = some L := by
      cases hkm : infKey (selMinE rest best).2 with
      | none =>
        rw [infKey_of_ge _ hlen₀, hkm] at hle₀
        simp [keyLt] at hle₀
      | some L => exact ⟨L, rfl⟩
    obtain ⟨L, hkm⟩ := hkm
    obtain ⟨hm2, hmL⟩ := infKey_eq_some _ _ hkm
    refine ⟨pre, selMinE rest best, post, hsplit, rfl, hm2, ?_, ?_⟩
    · intro e he he2
      have hlt : keyLt (infKey e.2) (infKey (selMinE rest best).2) = false := by
        rcases List.mem_cons.mp he with h0 | h0
        · rw [h0]; exact hb
        · exact hr e h0
      rw [infKey_of_ge _ he2, hkm] at hlt
      simp [keyLt] at hlt
      omega
    · intro e he he2
      have hlt := hpre e he
      rw [infKey_of_ge _ he2, hkm] at hlt
      simp [keyLt] at hlt
      omega

/-- Witness for `select_unassigned_variable_mrv`. -/
theorem select_unassigned_variable_mrv_witness :
    (∃ e ∈ ([(0, PyDomain.lst [1]), (1, PyDomain.lst [1, 2, 3]),
        (2, PyDomain.lst [1, 2]), (3, PyDomain.lst [4, 5])] : Store),
      2 ≤ pyLen e.2) ∧
    (∃ pre m post,
      ([(0, PyDomain.lst [1]), (1, PyDomain.lst [1, 2, 3]),
        (2, PyDomain.lst [1, 2]), (3, PyDomain.lst [4, 5])] : Store) =
        pre ++ m :: post ∧
      select [(0, PyDomain.lst [1]), (1, PyDomain.lst [1, 2, 3]),
        (2, PyDomain.lst [1, 2]), (3, PyDomain.lst [4, 5])] = some m.1 ∧
      2 ≤ pyLen m.2 ∧
      (∀ e ∈ ([(0, PyDomain.lst [1]), (1, PyDomain.lst [1, 2, 3]),
          (2, PyDomain.lst [1, 2]), (3, PyDomain.lst [4, 5])] : Store),
        2 ≤ pyLen e.2 → pyLen m.2 ≤ pyLen e.2) ∧
      (∀ e ∈ pre, 2 ≤ pyLen e.2 → pyLen m.2 < pyLen e.2)) :=
  ⟨by decide, select_unassigned_variable_mrv _ (by decide)⟩

/-! ### Claim C8 -/

theorem pyLenD_assocSet_self (s : Store) (k : Var) (d : PyDomain) :
    pyLenD (assocSet s k d) k = pyLen d := by
  simp [pyLenD, lookupD, lookupA_assocSet_self]

theorem pyLenD_assocSet_ne (s : Store) (k v : Var) (d : PyDomain)
    (h : v ≠ k) : pyLenD (assocSet s k d) v = pyLenD s v := by
  simp [pyLenD, lookupD, lookupA_assocSet_ne _ _ _ _ h]

/-- Function `reviseLoop` never lengthens the list, and if it reports a revision
that was not already reported on entry, it strictly shortened the list. -/
theorem reviseLoop_len (g : CSPg) (xi xj : Var) (djO : List Val) :
    ∀ n xs i b xs' b', reviseLoop g xi xj djO n xs i b = .ok (xs', b') →
      xs'.length ≤ xs.length ∧
      (b = false → b' = true → xs'.length + 1 ≤ xs.length) := by
  intro n
  induction n with
  | zero =>
    intro xs i b xs' b' h
    simp only [reviseLoop] at h
    injection h with h
    injection h with h1 h2
    subst h1
    subst h2
    exact ⟨Nat.le_refl _, fun hb hb' => by rw [hb] at hb'; cases hb'⟩
  | succ n ih =>
    intro xs i b xs' b' h
    by_cases hi : i < xs.length
    · simp only [reviseLoop, dif_pos hi] at h
      cases hs : supCheck g xi xj (xs.get ⟨i, hi⟩)
          (if xi = xj then xs else djO) with
      | error e => rw [hs] at h; cases h
      | ok bb =>
        rw [hs] at h
        cases bb with
        | true => exact ih xs (i + 1) b xs' b' h
        | false =>
          have hmem : xs.get ⟨i, hi⟩ ∈ xs := xs.get_mem i hi
          have hlen : (xs.erase (xs.get ⟨i, hi⟩)).length = xs.length - 1 :=
            List.length_erase_of_mem hmem
          obtain ⟨h1, h2⟩ := ih (xs.erase (xs.get ⟨i, hi⟩)) (i + 1) true xs' b' h
          constructor
          · omega
          · intro _ _
            omega
    · simp only [reviseLoop, dif_neg hi] at h
      injection h with h
      injection h with h1 h2
      subst h1
      subst h2
      exact ⟨Nat.le_refl _, fun hb hb' => by rw [hb] at hb'; cases hb'⟩

/-- Case analysis of a successful `revise`: either it removed nothing and
returned the store unchanged with `False`, or it returned `True` and the
store with `xi`'s list domain strictly shortened. -/
theorem reviseF_ok_cases (g : CSPg) (s : Store) (xi xj : Var) (s₁ : Store)
    (rev : Bool) (h : reviseF g s xi xj = .ok (s₁, rev)) :
    (rev = false ∧ s₁ = s) ∨
    (rev = true ∧ ∃ xs xs', lookupD s xi = some (.lst xs) ∧
      s₁ = assocSet s xi (.lst xs') ∧ xs'.length + 1 ≤ xs.length) := by
  cases hdi : lookupD s xi with
  | none =>
    simp only [reviseF, hdi] at h
    exact Except.noConfusion h
  | some di =>
    cases di with
    | raw v =>
      cases hdj : lookupD s xj with
      | none =>
        simp only [reviseF, hdi, hdj] at h
        exact Except.noConfusion h
      | some dj =>
        cases hs : supCheck g xi xj v (pyIter dj) with
        | error e =>
          simp only [reviseF, hdi, hdj, hs] at h
          exact Except.noConfusion h
        | ok bb =>
          cases bb with
          | true =>
            simp only [reviseF, hdi, hdj, hs, Except.ok.injEq,
              Prod.mk.injEq] at h
            exact .inl ⟨h.2.symm, h.1.symm⟩
          | false =>
            simp only [reviseF, hdi, hdj, hs] at h
            exact Except.noConfusion h
    | lst xs =>
      cases hE : xs.isEmpty with
      | true =>
        simp only [reviseF, hdi, hE, if_true, Except.ok.injEq,
          Prod.mk.injEq] at h
        exact .inl ⟨h.2.symm, h.1.symm⟩
      | false =>
        cases hdj : lookupD s xj with
        | none =>
          simp only [reviseF, hdi, hE, Bool.false_eq_true, if_false,
            hdj] at h
          exact Except.noConfusion h
        | some dj =>
          cases hl : reviseLoop g xi xj (pyIter dj) xs.length xs 0 false with
          | error e =>
            simp only [reviseF, hdi, hE, Bool.false_eq_true, if_false, hdj,
              hl] at h
            exact Except.noConfusion h
          | ok p =>
            obtain ⟨xs', bb⟩ := p
            cases bb with
            | true =>
              simp only [reviseF, hdi, hE, Bool.false_eq_true, if_false,
                hdj, hl, if_true, Except.ok.injEq, Prod.mk.injEq] at h
              refine .inr ⟨h.2.symm, xs, xs', rfl, h.1.symm, ?_⟩
              exact (reviseLoop_len g xi xj (pyIter dj) xs.length xs 0 false
                xs' true hl).2 rfl rfl
            | false =>
              simp only [reviseF, hdi, hE, Bool.false_eq_true, if_false,
                hdj, hl, Except.ok.injEq, Prod.mk.injEq] at h
              exact .inl ⟨h.2.symm, h.1.symm⟩

theorem domTermL_mono (cs : List (Var × List (Var × List (Val × Val))))
    (s s' : Store) (h : ∀ v, pyLenD s' v ≤ pyLenD s v) :
    domTermL cs s' ≤ domTermL cs s := by
  induction cs with
  | nil => exact Nat.le_refl _
  | cons c t ih =>
    simp only [domTermL, List.map_cons, List.sum_cons] at *
    exact Nat.add_le_add (Nat.mul_le_mul_left _ (h c.1)) ih

theorem domTermL_decrease (cs : List (Var × List (Var × List (Val × Val))))
    (s s' : Store) (xi : Var) (nbrs : List (Var × List (Val × Val)))
    (hlook : lookupA cs xi = some nbrs)
    (hstrict : pyLenD s' xi + 1 ≤ pyLenD s xi)
    (heq : ∀ v, v ≠ xi → pyLenD s' v = pyLenD s v) :
    domTermL cs s' + nbrs.length ≤ domTermL cs s := by
  have hmono : ∀ v, pyLenD s' v ≤ pyLenD s v := by
    intro v
    by_cases hv : v = xi
    · subst hv; omega
    · rw [heq v hv]
  induction cs with
  | nil => cases hlook
  | cons c t ih =>
    obtain ⟨k, nb⟩ := c
    by_cases hk : k = xi
    · subst hk
      have hnb : nb = nbrs := by
        simp [lookupA] at hlook
        exact hlook
      subst hnb
      simp only [domTermL, List.map_cons, List.sum_cons]
      have h1 : nb.length * pyLenD s' k + nb.length ≤
          nb.length * pyLenD s k := by
        have h2 := Nat.mul_le_mul_left nb.length hstrict
        rwa [Nat.mul_add, Nat.mul_one] at h2
      have h3 : domTermL t s' ≤ domTermL t s := domTermL_mono t s s' hmono
      simp only [domTermL] at h3
      omega
    · have hlook' : lookupA t xi = some nbrs := by
        simpa [lookupA, hk] using hlook
      have hkk : pyLenD s' k = pyLenD s k := heq k hk
      simp only [domTermL, List.map_cons, List.sum_cons]
      rw [hkk]
      have h4 := ih hlook'
      simp only [domTermL] at h4
      omega

theorem allArcs_length (g : CSPg) :
    (allArcs g).length = (g.constraints.map (fun p => p.2.length)).sum := by
  unfold allArcs
  induction g.constraints with
  | nil => rfl
  | cons c t ih => simp [List.flatMap_cons, ih]

theorem domTermL_le_mul (cs : List (Var × List (Var × List (Val × Val))))
    (s : Store) (d : Nat) (hd : ∀ i ∈ cs.map Prod.fst, pyLenD s i ≤ d) :
    domTermL cs s ≤ (cs.map (fun p => p.2.length)).sum * d := by
  induction cs with
  | nil => simp [domTermL]
  | cons c t ih =>
    simp only [domTermL, List.map_cons, List.sum_cons, Nat.add_mul]
    have h1 : c.2.length * pyLenD s c.1 ≤ c.2.length * d :=
      Nat.mul_le_mul_left _ (hd c.1 (by simp))
    have h2 : domTermL t s ≤ (t.map (fun p => p.2.length)).sum * d :=
      ih (fun i hi => hd i (by simp [hi]))
    simp only [domTermL] at h2
    omega

/-- Every iteration of the AC-3 loop strictly decreases `phi`, so `phi`
many units of fuel suffice, and the surviving domains only shrink. -/
theorem inferenceFuel_phi (g : CSPg) :
    ∀ fuel s q, phi g s q ≤ fuel →
      inferenceFuel g fuel s q ≠ .idiv ∧
      (∀ b s', inferenceFuel g fuel s q = .iok b s' →
        ∀ v, pyLenD s' v ≤ pyLenD s v) := by
  intro fuel
  induction fuel with
  | zero =>
    intro s q hphi
    cases q with
    | nil =>
      refine ⟨by simp [inferenceFuel], ?_⟩
      intro b s' h
      simp only [inferenceFuel] at h
      injection h with h1 h2
      subst h2
      exact fun v => Nat.le_refl _
    | cons a rest =>
      exfalso
      simp [phi] at hphi
  | succ fuel ih =>
    intro s q hphi
    cases q with
    | nil =>
      refine ⟨by simp [inferenceFuel], ?_⟩
      intro b s' h
      simp only [inferenceFuel] at h
      injection h with h1 h2
      subst h2
      exact fun v => Nat.le_refl _
    | cons a rest =>
      obtain ⟨xi, xj⟩ := a
      cases hrev : reviseF g s xi xj with
      | error e =>
        refine ⟨by simp [inferenceFuel, hrev], ?_⟩
        intro b s' h
        simp only [inferenceFuel, hrev] at h
        exact IOut.noConfusion h
      | ok p =>
        obtain ⟨s₁, rev⟩ := p
        rcases reviseF_ok_cases g s xi xj s₁ rev hrev with
          ⟨hfalse, hseq⟩ | ⟨htrue, xs, xs', hdi, hs₁, hlen⟩
        · subst hfalse
          have step : inferenceFuel g (fuel + 1) s ((xi, xj) :: rest) =
              inferenceFuel g fuel s rest := by
            simp [inferenceFuel, hrev, hseq]
          have hphi' : phi g s rest ≤ fuel := by
            simp only [phi, List.length_cons] at hphi ⊢
            omega
          rw [step]
          exact ih s rest hphi'
        · subst htrue
          subst hs₁
          have hLxi : pyLenD s xi = xs.length := by
            simp [pyLenD, hdi, pyLen]
          have hLxi' : pyLenD (assocSet s xi (.lst xs')) xi = xs'.length := by
            simp [pyLenD_assocSet_self, pyLen]
          have hne : ∀ v, v ≠ xi →
              pyLenD (assocSet s xi (.lst xs')) v = pyLenD s v :=
            fun v hv => pyLenD_assocSet_ne s xi v _ hv
          have hmono1 : ∀ v, pyLenD (assocSet s xi (.lst xs')) v ≤
              pyLenD s v := by
            intro v
            by_cases hv : v = xi
            · subst hv; omega
            · rw [hne v hv]
          have hdi' : lookupD (assocSet s xi (.lst xs')) xi =
              some (.lst xs') := lookupA_assocSet_self s xi _
          cases hfal : pyFalsy (.lst xs') with
          | true =>
            have step : inferenceFuel g (fuel + 1) s ((xi, xj) :: rest) =
                .iok false (assocSet s xi (.lst xs')) := by
              simp [inferenceFuel, hrev, hdi', hfal]
            refine ⟨by simp [step], ?_⟩
            intro b s' h
            rw [step] at h
            injection h with h1 h2
            subst h2
            exact hmono1
          | false =>
            cases hnb : lookupA g.constraints xi with
            | none =>
              have step : inferenceFuel g (fuel + 1) s ((xi, xj) :: rest) =
                  .ierr .keyError := by
                simp [inferenceFuel, hrev, hdi', hfal, hnb]
              refine ⟨by simp [step], ?_⟩
              intro b s' h
              rw [step] at h
              cases h
            | some nbrs =>
              have step : inferenceFuel g (fuel + 1) s ((xi, xj) :: rest) =
                  inferenceFuel g fuel (assocSet s xi (.lst xs'))
                    (rest ++
                      ((nbrs.map Prod.fst).filter (fun xk => xk ≠ xj)).map
                        (fun xk => (xk, xi))) := by
                simp [inferenceFuel, hrev, hdi', hfal, hnb]
              have hdec : domTermL g.constraints (assocSet s xi (.lst xs')) +
                  nbrs.length ≤ domTermL g.constraints s :=
                domTermL_decrease g.constraints s _ xi nbrs hnb
                  (by omega) hne
              have hq : (rest ++
                  ((nbrs.map Prod.fst).filter (fun xk => xk ≠ xj)).map
                    (fun xk => (xk, xi))).length ≤
                  rest.length + nbrs.length := by
                have hf := List.length_filter_le (fun xk => xk ≠ xj)
                  (nbrs.map Prod.fst)
                simp only [List.length_append, List.length_map] at *
                omega
              have hphi' : phi g (assocSet s xi (.lst xs'))
                  (rest ++
                    ((nbrs.map Prod.fst).filter (fun xk => xk ≠ xj)).map
                      (fun xk => (xk, xi))) ≤ fuel := by
                simp only [phi, domTerm, List.length_cons] at hphi ⊢
                omega
              rw [step]
              obtain ⟨hnd, hmono2⟩ := ih (assocSet s xi (.lst xs')) _ hphi'
              refine ⟨hnd, ?_⟩
              intro b s' h v
              exact Nat.le_trans (hmono2 b s' h v) (hmono1 v)

/-- C8 (confirmed): monotonicity and termination of AC-3 with the textbook
bound.  For any queue `q` and any bound `d` on the current domain sizes of
the constraint sources, running `inference` with
`q.length + e * d` units of fuel — one unit per `revise` call, and
`e = (allArcs g).length` the arc count — never exhausts the fuel, i.e. the
loop performs at most `q.length + e·d` revise calls (for the program's seed
`q = get_all_arcs()` this is `e·(1 + d) = O(d·e)`); and whenever the loop
returns a boolean, every variable's domain size in the resulting store is
no larger than it was on entry (`revise` only removes values). -/
theorem inference_terminates_bounded_monotone (g : CSPg) (s : Store)
    (q : List (Var × Var)) (d : Nat)
    (hd : ∀ i ∈ g.constraints.map Prod.fst, pyLenD s i ≤ d) :
    inferenceFuel g (q.length + (allArcs g).length * d) s q ≠ .idiv ∧
    (∀ b s',
      inferenceFuel g (q.length + (allArcs g).length * d) s q = .iok b s' →
      ∀ v, pyLenD s' v ≤ pyLenD s v) := by
  apply inferenceFuel_phi
  unfold phi domTerm
  rw [allArcs_length]
  exact Nat.add_le_add_left (domTermL_le_mul g.constraints s d hd) q.length

/-- Witness for `inference_terminates_bounded_monotone` at `g1`. -/
theorem inference_terminates_bounded_monotone_witness :
    (∀ i ∈ g1.constraints.map Prod.fst, pyLenD (initStore g1) i ≤ 3) ∧
    (inferenceFuel g1
        ((allArcs g1).length + (allArcs g1).length * 3) (initStore g1)
        (allArcs g1) ≠ .idiv ∧
      (∀ b s',
        inferenceFuel g1
          ((allArcs g1).length + (allArcs g1).length * 3) (initStore g1)
          (allArcs g1) = .iok b s' →
        ∀ v, pyLenD s' v ≤ pyLenD (initStore g1) v)) :=
  ⟨by decide,
    inference_terminates_bounded_monotone g1 (initStore g1) (allArcs g1) 3
      (by decide)⟩
